import Mathlib

/-!
Verification of the watermark-extractor core against its specification.

The Python sources `src/video_processor.py`, `src/ocr_processor.py` and the
`ROI` value class of `src/config_manager.py` are shallowly embedded below.
Times and confidences are embedded as rationals (`ℚ`), identifiers as `Int`
(`Option Int` where Python uses `None` as the unassigned sentinel), and image
frames as opaque records carrying only the shape information the code
inspects plus an index used to key the recognition-engine oracle.

External collaborators (the ffmpeg scene detector, the trim operation, the
media decoder and the OCR engine) are passed in as explicit oracle
parameters, so that theorems of the form "fails before any external call"
can be stated as results that hold for every oracle.

Python list mutation is modelled by returning the post-state of the list:
operations that can fail midway return `Except (String × List Clip) _`,
the error carrying the message and the state of the list at raise time.
-/

namespace WE

/-- `ROI` from `config_manager.py`: a rectangle `x, y, width, height`.
The fields are embedded as raw integers; the constructor validation lives in
the functions that consume ROIs, exactly as the claims exercise them. -/
structure ROI where
  x : Int
  y : Int
  width : Int
  height : Int
deriving DecidableEq, Repr

/-- `Clip` from `video_processor.py`.  `clip_id` is `None` until persisted. -/
structure Clip where
  clip_id : Option Int
  video_id : Int
  start_time : ℚ
  end_time : ℚ
  file_path : Option String
deriving DecidableEq, Repr

/-- An image frame.  The code only inspects `frame.shape[0]` (height) and
`frame.shape[1]` (width); `idx` keys the recognition-engine oracle. -/
structure Frame where
  height : Int
  width : Int
  idx : Nat
deriving DecidableEq, Repr

/-- `FrameBatch` from `video_processor.py`. -/
structure FrameBatch where
  clip_id : Int
  frames : List Frame
  timestamps : List ℚ
deriving DecidableEq, Repr

/-- `OCRResult` from `ocr_processor.py` (a watermark Detection). -/
structure OCRResult where
  video_id : Int
  clip_id : Int
  timestamp : ℚ
  text : String
  confidence : ℚ
  roi : ROI
deriving DecidableEq, Repr

/-- The `OCRResult.__init__` validation: text must be non-empty and the
confidence must lie in `[0, 1]`, else a `ValueError` is raised. -/
def mkOCRResult (video_id clip_id : Int) (timestamp : ℚ) (text : String)
    (confidence : ℚ) (roi : ROI) : Except String OCRResult :=
  if text = "" then .error "OCRResult text must be non-empty"
  else if ¬(0 ≤ confidence ∧ confidence ≤ 1) then
    .error "OCRResult confidence must be between 0.0 and 1.0"
  else .ok ⟨video_id, clip_id, timestamp, text, confidence, roi⟩

/-! ## Clip timeline: `detect_clips` (`video_processor.py`, lines 39-69) -/

/-- The clip-building loop of `detect_clips`: starting from `prev`, each
boundary `t` yields a clip `(prev, t)`, and a final clip `(prev, duration)`
is appended.  New clips carry `clip_id = None` and no file path. -/
def buildClips (video_id : Int) (duration : ℚ) (prev : ℚ) :
    List ℚ → List Clip
  | [] => [⟨none, video_id, prev, duration, none⟩]
  | t :: rest => ⟨none, video_id, prev, t, none⟩ :: buildClips video_id duration t rest

/-- `detect_clips(video, scene_threshold)`.  `boundaries` is the list of
`pts_time` values extracted from the external detector's report (every such
marker, all other report content ignored); `runOk` is false when the external
process exits non-zero.  The code sorts the extracted values ascending and
builds the clip partition with `0.0` prepended and `video.duration`
appended. -/
def detect_clips (video_id : Int) (duration : ℚ) (scene_threshold : ℚ)
    (runOk : Bool) (boundaries : List ℚ) : Except String (List Clip) :=
  if ¬(0 < scene_threshold ∧ scene_threshold < 1) then
    .error "scene_threshold must be between 0.0 and 1.0"
  else if ¬runOk then .error "Scene detection failed."
  else
    let pts_times := List.insertionSort (· ≤ ·) boundaries
    .ok (buildClips video_id duration 0 pts_times)

theorem buildClips_length (vid : Int) (dur prev : ℚ) (bs : List ℚ) :
    (buildClips vid dur prev bs).length = bs.length + 1 := by
  induction bs generalizing prev with
  | nil => rfl
  | cons t rest ih => simp [buildClips, ih]

theorem buildClips_map_start (vid : Int) (dur prev : ℚ) (bs : List ℚ) :
    (buildClips vid dur prev bs).map (·.start_time) = prev :: bs := by
  induction bs generalizing prev with
  | nil => rfl
  | cons t rest ih => simp [buildClips, ih]

theorem buildClips_map_end (vid : Int) (dur prev : ℚ) (bs : List ℚ) :
    (buildClips vid dur prev bs).map (·.end_time) = bs ++ [dur] := by
  induction bs generalizing prev with
  | nil => rfl
  | cons t rest ih => simp [buildClips, ih]

theorem buildClips_chain (vid : Int) (dur prev : ℚ) (bs : List ℚ) :
    List.Chain' (fun a b => a.end_time = b.start_time)
      (buildClips vid dur prev bs) := by
  induction bs generalizing prev with
  | nil => simp [buildClips]
  | cons t rest ih =>
    cases rest with
    | nil => simp [buildClips]
    | cons u rest2 =>
      exact List.Chain'.cons rfl (ih t)

theorem buildClips_ids (vid : Int) (dur prev : ℚ) (bs : List ℚ) :
    ∀ c ∈ buildClips vid dur prev bs, c.video_id = vid ∧ c.clip_id = none := by
  induction bs generalizing prev with
  | nil => simp [buildClips]
  | cons t rest ih =>
    intro c hc
    simp only [buildClips, List.mem_cons] at hc
    rcases hc with rfl | hc
    · exact ⟨rfl, rfl⟩
    · exact ih t c hc

theorem buildClips_wf (vid : Int) (dur prev : ℚ) (bs : List ℚ)
    (hs : List.Sorted (· ≤ ·) bs) (h0 : ∀ b ∈ bs, prev ≤ b)
    (h1 : ∀ b ∈ bs, b ≤ dur) (hp : prev ≤ dur) :
    ∀ c ∈ buildClips vid dur prev bs, c.start_time ≤ c.end_time := by
  induction bs generalizing prev with
  | nil => simp [buildClips]; exact hp
  | cons t rest ih =>
    intro c hc
    simp only [buildClips, List.mem_cons] at hc
    rcases hc with rfl | hc
    · exact h0 t (by simp)
    · refine ih t (List.Sorted.of_cons hs) ?_ ?_ ?_ c hc
      · exact fun b hb => (List.sorted_cons.mp hs).1 b hb
      · exact fun b hb => h1 b (by simp [hb])
      · exact h1 t (by simp)

/-- Contiguous clips whose individual endpoints are ordered are pairwise
non-overlapping: each clip ends no later than every later clip starts. -/
theorem chain_pairwise_nonoverlap (l : List Clip)
    (hc : List.Chain' (fun a b => a.end_time = b.start_time) l)
    (hw : ∀ c ∈ l, c.start_time ≤ c.end_time) :
    List.Pairwise (fun a b => a.end_time ≤ b.start_time) l := by
  induction l with
  | nil => exact List.Pairwise.nil
  | cons a l ih =>
    have htail : List.Chain' (fun x y => x.end_time = y.start_time) l :=
      hc.tail
    have hwt : ∀ c ∈ l, c.start_time ≤ c.end_time :=
      fun c hcᵢ => hw c (by simp [hcᵢ])
    have hp := ih htail hwt
    refine List.pairwise_cons.mpr ⟨?_, hp⟩
    intro b hb
    cases l with
    | nil => cases hb
    | cons h0 t =>
      have hah : a.end_time = h0.start_time :=
        (List.chain'_cons.mp hc).1
      rcases List.mem_cons.mp hb with rfl | hbt
      · exact le_of_eq hah
      · have h0b : h0.end_time ≤ b.start_time :=
          (List.pairwise_cons.mp hp).1 b hbt
        have : h0.start_time ≤ h0.end_time := hwt h0 (by simp)
        linarith [hah]

/-- C1: `detect(video, t)` fails with the invalid-argument error for every
`t` outside `(0, 1)`, for every detector outcome; for `t` strictly inside
`(0, 1)` and every list of boundary timestamps extracted from the detector's
report (presentation timestamps, hence within `[0, duration]`), the result is
the `n+1` clips obtained by sorting the boundaries ascending, prepending
`0.0` and appending `video.duration`: contiguous, non-overlapping, in
increasing time order, first starting at `0`, last ending at the duration. -/
theorem detect_clips_spec (vid : Int) (dur t : ℚ) (boundaries : List ℚ) :
    (¬(0 < t ∧ t < 1) →
      ∀ (runOk : Bool) (bs : List ℚ),
        detect_clips vid dur t runOk bs =
          .error "scene_threshold must be between 0.0 and 1.0") ∧
    ((0 < t ∧ t < 1) → (∀ b ∈ boundaries, 0 ≤ b ∧ b ≤ dur) → 0 ≤ dur →
      ∃ clips, detect_clips vid dur t true boundaries = .ok clips ∧
        (List.insertionSort (· ≤ ·) boundaries).Perm boundaries ∧
        List.Sorted (· ≤ ·) (List.insertionSort (· ≤ ·) boundaries) ∧
        clips.map (·.start_time) = 0 :: List.insertionSort (· ≤ ·) boundaries ∧
        clips.map (·.end_time) = List.insertionSort (· ≤ ·) boundaries ++ [dur] ∧
        clips.length = boundaries.length + 1 ∧
        List.Chain' (fun a b => a.end_time = b.start_time) clips ∧
        (∀ c ∈ clips, c.start_time ≤ c.end_time) ∧
        List.Pairwise (fun a b => a.end_time ≤ b.start_time) clips ∧
        List.Pairwise (fun a b => a.start_time ≤ b.start_time) clips ∧
        clips.head?.map (·.start_time) = some 0 ∧
        clips.getLast?.map (·.end_time) = some dur ∧
        (∀ c ∈ clips, c.video_id = vid ∧ c.clip_id = none)) := by
  constructor
  · intro hbad runOk bs
    simp [detect_clips, hbad]
  · intro hgood hb hdur
    set sb := List.insertionSort (· ≤ ·) boundaries with hsb
    have hperm : sb.Perm boundaries := List.perm_insertionSort _ _
    have hsorted : List.Sorted (· ≤ ·) sb := List.sorted_insertionSort _ _
    have hbs : ∀ b ∈ sb, 0 ≤ b ∧ b ≤ dur := fun b hbm => hb b (hperm.mem_iff.mp hbm)
    refine ⟨buildClips vid dur 0 sb, ?_, hperm, hsorted, ?_, ?_, ?_, ?_, ?_, ?_, ?_, ?_, ?_, ?_⟩
    · simp [detect_clips, hgood]
    · exact buildClips_map_start vid dur 0 sb
    · exact buildClips_map_end vid dur 0 sb
    · rw [buildClips_length, (List.Perm.length_eq hperm)]
    · exact buildClips_chain vid dur 0 sb
    · exact buildClips_wf vid dur 0 sb hsorted
        (fun b hbm => (hbs b hbm).1) (fun b hbm => (hbs b hbm).2) hdur
    · exact chain_pairwise_nonoverlap _ (buildClips_chain vid dur 0 sb)
        (buildClips_wf vid dur 0 sb hsorted
          (fun b hbm => (hbs b hbm).1) (fun b hbm => (hbs b hbm).2) hdur)
    · have hw := buildClips_wf vid dur 0 sb hsorted
        (fun b hbm => (hbs b hbm).1) (fun b hbm => (hbs b hbm).2) hdur
      have hno := chain_pairwise_nonoverlap _ (buildClips_chain vid dur 0 sb) hw
      refine hno.imp_of_mem ?_
      intro a b ha hbm hab
      exact le_trans (hw a ha) hab
    · have h := buildClips_map_start vid dur 0 sb
      have : (buildClips vid dur 0 sb).head?.map (·.start_time) =
          ((buildClips vid dur 0 sb).map (·.start_time)).head? := by
        rw [List.head?_map]
      rw [this, h]; rfl
    · have h := buildClips_map_end vid dur 0 sb
      have : (buildClips vid dur 0 sb).getLast?.map (·.end_time) =
          ((buildClips vid dur 0 sb).map (·.end_time)).getLast? := by
        rw [List.getLast?_map]
      rw [this, h, List.getLast?_concat]
    · exact buildClips_ids vid dur 0 sb

/-- Witness for C1 at the spec's example: boundaries `[2.0, 4.5]`, duration
`10.0`, threshold `0.4` produce clips `(0,2),(2,4.5),(4.5,10)`; threshold
`1.5` fails. -/
theorem detect_clips_spec_witness :
    (∃ clips, detect_clips 7 10 (2/5) true [2, 9/2] = .ok clips ∧
      clips.map (·.start_time) = [0, 2, 9/2] ∧
      clips.map (·.end_time) = [2, 9/2, 10] ∧ clips.length = 3) ∧
    detect_clips 7 10 (3/2) true [2] =
      .error "scene_threshold must be between 0.0 and 1.0" := by
  constructor
  · obtain ⟨-, h⟩ := detect_clips_spec 7 10 (2/5) [2, 9/2]
    obtain ⟨clips, hok, -, -, hstart, hend, hlen, -⟩ :=
      h (by norm_num) (by intro b hb; fin_cases hb <;> norm_num) (by norm_num)
    refine ⟨clips, hok, ?_, ?_, hlen⟩
    · rw [hstart]; norm_num [List.insertionSort, List.orderedInsert]
    · rw [hend]; norm_num [List.insertionSort, List.orderedInsert]
  · exact (detect_clips_spec 7 10 (3/2) []).1 (by norm_num) true [2]

/-! ## Clip timeline: `split_clip` (`video_processor.py`, lines 97-112) -/

/-- `split_clip(clips, clip_id_to_split, split_time)`.  Finds the first clip
whose identity matches, validates that `split_time` lies strictly between its
bounds, removes it and appends the two halves (identity unassigned, parent's
video id).  Failures carry the list unchanged. -/
def split_clip (clips : List Clip) (clip_id_to_split : Int) (split_time : ℚ) :
    Except (String × List Clip) (List Clip × Clip × Clip) :=
  match clips.find? (fun c => decide (c.clip_id = some clip_id_to_split)) with
  | none =>
    .error ("Clip ID " ++ toString clip_id_to_split ++ " not found", clips)
  | some target =>
    if ¬(target.start_time < split_time ∧ split_time < target.end_time) then
      .error ("split_time must be within the bounds of the clip", clips)
    else
      let new1 : Clip := ⟨none, target.video_id, target.start_time, split_time, none⟩
      let new2 : Clip := ⟨none, target.video_id, split_time, target.end_time, none⟩
      .ok (clips.erase target ++ [new1, new2], new1, new2)

/-- C4: `split` fails, leaving the list unchanged, when no clip has the
requested identity or when `split_time` is not strictly inside the target's
bounds (both ends exclusive); otherwise it removes the target and appends
exactly the clips `(start, split_time)` and `(split_time, end)`, both with
the parent's video id and unassigned identity, growing the count by one. -/
theorem split_clip_spec (clips : List Clip) (cid : Int) (st : ℚ) :
    ((∀ c ∈ clips, c.clip_id ≠ some cid) →
      split_clip clips cid st =
        .error ("Clip ID " ++ toString cid ++ " not found", clips)) ∧
    (∀ target,
      clips.find? (fun c => decide (c.clip_id = some cid)) = some target →
      target ∈ clips ∧ target.clip_id = some cid ∧
      (¬(target.start_time < st ∧ st < target.end_time) →
        split_clip clips cid st =
          .error ("split_time must be within the bounds of the clip", clips)) ∧
      (target.start_time < st ∧ st < target.end_time →
        ∃ res,
          split_clip clips cid st =
            .ok (res, ⟨none, target.video_id, target.start_time, st, none⟩,
                 ⟨none, target.video_id, st, target.end_time, none⟩) ∧
          res = clips.erase target ++
            [⟨none, target.video_id, target.start_time, st, none⟩,
             ⟨none, target.video_id, st, target.end_time, none⟩] ∧
          res.length = clips.length + 1)) := by
  constructor
  · intro hnone
    have hfind : clips.find? (fun c => decide (c.clip_id = some cid)) = none := by
      rw [List.find?_eq_none]
      intro c hc
      simpa using hnone c hc
    simp [split_clip, hfind]
  · intro target hfind
    have hmem : target ∈ clips := List.mem_of_find?_eq_some hfind
    have hid : target.clip_id = some cid := by
      have := List.find?_some hfind
      simpa using this
    refine ⟨hmem, hid, ?_, ?_⟩
    · intro hbad
      simp [split_clip, hfind, hbad]
    · intro hgood
      refine ⟨clips.erase target ++
        [⟨none, target.video_id, target.start_time, st, none⟩,
         ⟨none, target.video_id, st, target.end_time, none⟩], ?_, rfl, ?_⟩
      · simp [split_clip, hfind, hgood]
      · have := List.length_erase_of_mem hmem
        have hpos : 0 < clips.length := List.length_pos_of_mem hmem
        simp [this]
        omega

/-- Witness for C4 at the spec's example: `split(Clip(0,10), 5)` yields
`(0,5),(5,10)`; splitting at `0.0` or `10.0` fails with the list intact. -/
theorem split_clip_spec_witness :
    split_clip [⟨some 1, 7, 0, 10, none⟩] 1 5 =
      .ok ([⟨none, 7, 0, 5, none⟩, ⟨none, 7, 5, 10, none⟩],
           ⟨none, 7, 0, 5, none⟩, ⟨none, 7, 5, 10, none⟩) ∧
    split_clip [⟨some 1, 7, 0, 10, none⟩] 1 0 =
      .error ("split_time must be within the bounds of the clip",
              [⟨some 1, 7, 0, 10, none⟩]) ∧
    split_clip [⟨some 1, 7, 0, 10, none⟩] 1 10 =
      .error ("split_time must be within the bounds of the clip",
              [⟨some 1, 7, 0, 10, none⟩]) := by
  have hfind : ([⟨some 1, 7, 0, 10, none⟩] : List Clip).find?
      (fun c => decide (c.clip_id = some 1)) = some ⟨some 1, 7, 0, 10, none⟩ := by
    simp [List.find?]
  refine ⟨?_, ?_, ?_⟩
  · obtain ⟨-, h⟩ := split_clip_spec [⟨some 1, 7, 0, 10, none⟩] 1 5
    obtain ⟨-, -, -, hsucc⟩ := h _ hfind
    obtain ⟨res, hok, hres, -⟩ := hsucc (by norm_num)
    rw [hok, hres]
    simp [List.erase]
  · obtain ⟨-, h⟩ := split_clip_spec [⟨some 1, 7, 0, 10, none⟩] 1 0
    obtain ⟨-, -, hfail, -⟩ := h _ hfind
    exact hfail (by norm_num)
  · obtain ⟨-, h⟩ := split_clip_spec [⟨some 1, 7, 0, 10, none⟩] 1 10
    obtain ⟨-, -, hfail, -⟩ := h _ hfind
    exact hfail (by norm_num)

/-! ## Clip timeline: `merge_clips` (`video_processor.py`, lines 72-94) -/

/-- Lookup in the dict `{clip.clip_id: clip for clip in clips}`: the last
clip in the list with the given identity wins (later entries overwrite). -/
def lookupClip (clips : List Clip) (cid : Int) : Option Clip :=
  clips.reverse.find? (fun c => decide (c.clip_id = some cid))

/-- Python `min` over a non-empty sequence (left fold from the head). -/
def pyMin : List ℚ → ℚ
  | [] => 0
  | x :: xs => xs.foldl min x

/-- Python `max` over a non-empty sequence (left fold from the head). -/
def pyMax : List ℚ → ℚ
  | [] => 0
  | x :: xs => xs.foldl max x

/-- The removal loop `for clip in selected: clips.remove(clip)`: removes the
first occurrence of each target in turn; a missing target raises, with the
list left in its partially-mutated state. -/
def removeClips (l : List Clip) : List Clip → Except (String × List Clip) (List Clip)
  | [] => .ok l
  | c :: rest =>
    if c ∈ l then removeClips (l.erase c) rest
    else .error ("list.remove(x): x not in list", l)

/-- `merge_clips(clips, clip_ids_to_merge)`.  Validation: the id list must be
non-empty and equal to its sorted copy (note: non-decreasing, not strictly
ascending); every id must be a key of the id map; the selected clips must
share one `video_id`.  Then the selected clips are removed one by one and the
envelope clip is appended. -/
def merge_clips (clips : List Clip) (ids : List Int) :
    Except (String × List Clip) (List Clip × Clip) :=
  if ids = [] ∨ List.insertionSort (· ≤ ·) ids ≠ ids then
    .error ("clip_ids_to_merge must be a sorted, non-empty list", clips)
  else if ¬ ids.all (fun cid => (lookupClip clips cid).isSome) then
    .error ("Some clip IDs not found", clips)
  else
    let selected := ids.filterMap (lookupClip clips)
    if (selected.map (·.video_id)).dedup.length ≠ 1 then
      .error ("Clips must have the same video_id", clips)
    else
      let s := pyMin (selected.map (·.start_time))
      let e := pyMax (selected.map (·.end_time))
      match removeClips clips selected with
      | .error err => .error err
      | .ok clips2 =>
        let merged : Clip :=
          ⟨none, ((selected.head?).map (·.video_id)).getD 0, s, e, none⟩
        .ok (clips2 ++ [merged], merged)

theorem insertionSort_eq_self_iff (ids : List Int) :
    List.insertionSort (· ≤ ·) ids = ids ↔ List.Sorted (· ≤ ·) ids := by
  constructor
  · intro h
    have := List.sorted_insertionSort (· ≤ ·) ids
    rwa [h] at this
  · exact List.Sorted.insertionSort_eq

theorem lookupClip_some {clips : List Clip} {cid : Int} {c : Clip}
    (h : lookupClip clips cid = some c) : c ∈ clips ∧ c.clip_id = some cid := by
  have hm := List.mem_of_find?_eq_some h
  have hp := List.find?_some h
  exact ⟨List.mem_reverse.mp hm, by simpa using hp⟩

theorem foldl_min_le_init (xs : List ℚ) (a : ℚ) : xs.foldl min a ≤ a := by
  induction xs generalizing a with
  | nil => simp
  | cons x xs ih =>
    calc (x :: xs).foldl min a = xs.foldl min (min a x) := rfl
    _ ≤ min a x := ih (min a x)
    _ ≤ a := min_le_left a x

theorem foldl_min_le_mem (xs : List ℚ) (a : ℚ) :
    ∀ b ∈ xs, xs.foldl min a ≤ b := by
  induction xs generalizing a with
  | nil => simp
  | cons x xs ih =>
    intro b hb
    rcases List.mem_cons.mp hb with rfl | hb
    · calc xs.foldl min (min a b) ≤ min a b := foldl_min_le_init xs (min a b)
      _ ≤ b := min_le_right a b
    · exact ih (min a x) b hb

theorem foldl_min_mem (xs : List ℚ) (a : ℚ) :
    xs.foldl min a = a ∨ xs.foldl min a ∈ xs := by
  induction xs generalizing a with
  | nil => simp
  | cons x xs ih =>
    rcases ih (min a x) with h | h
    · rcases min_choice a x with hm | hm
      · left; rw [List.foldl_cons, h, hm]
      · right; rw [List.foldl_cons, h, hm]; simp
    · right
      simpa using Or.inr h

theorem foldl_max_ge_init (xs : List ℚ) (a : ℚ) : a ≤ xs.foldl max a := by
  induction xs generalizing a with
  | nil => simp
  | cons x xs ih =>
    calc a ≤ max a x := le_max_left a x
    _ ≤ xs.foldl max (max a x) := ih (max a x)
    _ = (x :: xs).foldl max a := rfl

theorem foldl_max_ge_mem (xs : List ℚ) (a : ℚ) :
    ∀ b ∈ xs, b ≤ xs.foldl max a := by
  induction xs generalizing a with
  | nil => simp
  | cons x xs ih =>
    intro b hb
    rcases List.mem_cons.mp hb with rfl | hb
    · calc b ≤ max a b := le_max_right a b
      _ ≤ xs.foldl max (max a b) := foldl_max_ge_init xs (max a b)
    · exact ih (max a x) b hb

theorem foldl_max_mem (xs : List ℚ) (a : ℚ) :
    xs.foldl max a = a ∨ xs.foldl max a ∈ xs := by
  induction xs generalizing a with
  | nil => simp
  | cons x xs ih =>
    rcases ih (max a x) with h | h
    · rcases max_choice a x with hm | hm
      · left; rw [List.foldl_cons, h, hm]
      · right; rw [List.foldl_cons, h, hm]; simp
    · right
      simpa using Or.inr h

theorem pyMin_le {l : List ℚ} (hne : l ≠ []) : ∀ b ∈ l, pyMin l ≤ b := by
  cases l with
  | nil => exact absurd rfl hne
  | cons x xs =>
    intro b hb
    rcases List.mem_cons.mp hb with rfl | hb
    · exact foldl_min_le_init xs b
    · exact foldl_min_le_mem xs x b hb

theorem pyMin_mem {l : List ℚ} (hne : l ≠ []) : pyMin l ∈ l := by
  cases l with
  | nil => exact absurd rfl hne
  | cons x xs =>
    rcases foldl_min_mem xs x with h | h
    · simp [pyMin, h]
    · simp [pyMin]
      exact Or.inr h

theorem pyMax_ge {l : List ℚ} (hne : l ≠ []) : ∀ b ∈ l, b ≤ pyMax l := by
  cases l with
  | nil => exact absurd rfl hne
  | cons x xs =>
    intro b hb
    rcases List.mem_cons.mp hb with rfl | hb
    · exact foldl_max_ge_init xs b
    · exact foldl_max_ge_mem xs x b hb

theorem pyMax_mem {l : List ℚ} (hne : l ≠ []) : pyMax l ∈ l := by
  cases l with
  | nil => exact absurd rfl hne
  | cons x xs =>
    rcases foldl_max_mem xs x with h | h
    · simp [pyMax, h]
    · simp [pyMax]
      exact Or.inr h

theorem count_le_one_of_idNodup {clips : List Clip}
    (hnd : (clips.filterMap (fun c => c.clip_id)).Nodup) {c : Clip} {i : Int}
    (hc : c.clip_id = some i) : clips.count c ≤ 1 := by
  by_contra h
  push_neg at h
  have hdup : clips.Duplicate c := List.duplicate_iff_two_le_count.mpr h
  have hsub : List.Sublist [c, c] clips := List.duplicate_iff_sublist.mp hdup
  have hsub2 : List.Sublist ([c, c].filterMap (fun x => x.clip_id))
      (clips.filterMap (fun x => x.clip_id)) := List.Sublist.filterMap _ hsub
  have : ([i, i] : List Int).Nodup := by
    rw [show ([i, i] : List Int) = [c, c].filterMap (fun x => x.clip_id) by
      simp [hc]]
    exact List.Nodup.sublist hsub2 hnd
  simp at this

theorem erase_eq_filter_of_count_le_one {α} [DecidableEq α] :
    ∀ (l : List α) (a : α), l.count a ≤ 1 →
      l.erase a = l.filter (fun x => decide (x ≠ a))
  | [], a, _ => by simp
  | b :: l, a, h => by
    by_cases hba : b = a
    · subst hba
      have hnotin : b ∉ l := by
        by_contra hmem
        have := List.count_cons_self b l
        have h2 : 0 < l.count b := List.count_pos_iff.mpr hmem
        omega
      rw [List.erase_cons_head]
      have hstep : (b :: l).filter (fun x => decide (x ≠ b)) =
          l.filter (fun x => decide (x ≠ b)) := by
        rw [List.filter_cons]
        simp
      rw [hstep]
      refine (List.filter_eq_self.mpr fun x hx => ?_).symm
      simp only [ne_eq, decide_eq_true_eq]
      rintro rfl
      exact hnotin hx
    · rw [List.erase_cons_tail (by simp [hba])]
      have hcount : l.count a ≤ 1 := by
        have := List.count_cons_of_ne (fun h => hba h.symm) l
        omega
      rw [erase_eq_filter_of_count_le_one l a hcount]
      rw [List.filter_cons]
      simp [hba]

theorem removeClips_ok (targets : List Clip) : ∀ (l : List Clip),
    targets.Nodup → (∀ t ∈ targets, t ∈ l ∧ l.count t ≤ 1) →
    removeClips l targets = .ok (l.filter (fun c => decide (c ∉ targets))) := by
  induction targets with
  | nil =>
    intro l _ _
    simp [removeClips]
  | cons t ts ih =>
    intro l hnodup hts
    have htl : t ∈ l := (hts t (by simp)).1
    have hcount : l.count t ≤ 1 := (hts t (by simp)).2
    rw [removeClips, if_pos htl]
    have hIH : removeClips (l.erase t) ts =
        .ok ((l.erase t).filter (fun c => decide (c ∉ ts))) := by
      apply ih (l.erase t) (List.Nodup.of_cons hnodup)
      intro u hu
      have hune : u ≠ t := by
        rintro rfl
        exact (List.nodup_cons.mp hnodup).1 hu
      constructor
      · exact (List.mem_erase_of_ne hune).mpr (hts u (by simp [hu])).1
      · calc (l.erase t).count u ≤ l.count u :=
          List.Sublist.count_le (List.erase_sublist t l) u
        _ ≤ 1 := (hts u (by simp [hu])).2
    rw [hIH]
    congr 1
    rw [erase_eq_filter_of_count_le_one l t hcount, List.filter_filter]
    apply List.filter_congr
    intro c _
    simp [List.mem_cons, not_or, Bool.and_comm]

theorem removeClips_ok_length (targets : List Clip) : ∀ (l res : List Clip),
    removeClips l targets = .ok res → res.length + targets.length = l.length := by
  induction targets with
  | nil =>
    intro l res h
    simp [removeClips] at h
    simp [h]
  | cons t ts ih =>
    intro l res h
    rw [removeClips] at h
    by_cases htl : t ∈ l
    · rw [if_pos htl] at h
      have := ih (l.erase t) res h
      have hlen := List.length_erase_of_mem htl
      have hpos : 0 < l.length := List.length_pos_of_mem htl
      simp only [List.length_cons]
      omega
    · rw [if_neg htl] at h
      cases h

theorem filterMap_eq_map_of_some {α β} (f : α → Option β) (g : α → β)
    (l : List α) (h : ∀ a ∈ l, f a = some (g a)) : l.filterMap f = l.map g := by
  induction l with
  | nil => rfl
  | cons a l ih =>
    rw [List.filterMap_cons, h a (by simp), List.map_cons,
      ih (fun a ha => h a (by simp [ha]))]

theorem dedup_const (l : List Int) (v : Int) (h : ∀ x ∈ l, x = v)
    (hne : l ≠ []) : l.dedup = [v] := by
  induction l with
  | nil => exact absurd rfl hne
  | cons x t ih =>
    have hx : x = v := h x (by simp)
    subst hx
    cases t with
    | nil => simp
    | cons y t2 =>
      have hy : y = x := h y (by simp)
      have hmem : x ∈ y :: t2 := by simp [hy]
      rw [List.dedup_cons_of_mem hmem]
      exact ih (fun z hz => h z (by simp [hz])) (by simp)

/-- C3 counterexample: the claim says merge fails with an invalid-argument
error when the id list is not strictly ascending, *leaving the clip list
unchanged*.  The code only validates that the id list equals its sorted copy
(non-decreasing), so the duplicate list `[1, 1]` passes validation; the
second `clips.remove` then raises after the clip has already been removed,
leaving the list mutated (empty) on failure. -/
theorem merge_clips_counterexample :
    merge_clips [⟨some 1, 7, 0, 5, none⟩] [1, 1] =
      .error ("list.remove(x): x not in list", []) ∧
    ([] : List Clip) ≠ [⟨some 1, 7, 0, 5, none⟩] := by
  refine ⟨?_, by simp⟩
  rfl

/-- C3 (amended): assuming persisted clip identities are pairwise distinct,
`merge` fails with an invalid-argument error leaving the clip list unchanged
when the id list is empty or not non-decreasing, contains an unknown
identifier, or selects clips of more than one video; for a strictly
ascending list of known identifiers of a single video it removes exactly the
selected clips and appends one envelope clip (video id of the selected
clips, `start = min start_time`, `end = max end_time`, identity unassigned),
so the count decreases by `len(ids) - 1`.  (Duplicate ids pass validation
and fail midway with the list mutated — see the counterexample.) -/
theorem merge_clips_amended (clips : List Clip) (ids : List Int)
    (hnd : (clips.filterMap (fun c => c.clip_id)).Nodup) :
    ((ids = [] ∨ ¬ List.Sorted (· ≤ ·) ids) →
      merge_clips clips ids =
        .error ("clip_ids_to_merge must be a sorted, non-empty list", clips)) ∧
    (ids ≠ [] → List.Sorted (· ≤ ·) ids →
      (∃ i ∈ ids, lookupClip clips i = none) →
      merge_clips clips ids = .error ("Some clip IDs not found", clips)) ∧
    (ids ≠ [] → List.Sorted (· ≤ ·) ids →
      (∀ i ∈ ids, (lookupClip clips i).isSome) →
      (∃ c1 ∈ ids.filterMap (lookupClip clips),
       ∃ c2 ∈ ids.filterMap (lookupClip clips), c1.video_id ≠ c2.video_id) →
      merge_clips clips ids =
        .error ("Clips must have the same video_id", clips)) ∧
    (ids ≠ [] → List.Pairwise (· < ·) ids →
      (∀ i ∈ ids, (lookupClip clips i).isSome) →
      ∀ v, (∀ c ∈ ids.filterMap (lookupClip clips), c.video_id = v) →
      ∃ res merged,
        merge_clips clips ids = .ok (res, merged) ∧
        res = clips.filter
            (fun c => decide (c ∉ ids.filterMap (lookupClip clips))) ++ [merged] ∧
        merged.clip_id = none ∧ merged.video_id = v ∧
        merged.file_path = none ∧
        merged.start_time =
          pyMin ((ids.filterMap (lookupClip clips)).map (·.start_time)) ∧
        merged.end_time =
          pyMax ((ids.filterMap (lookupClip clips)).map (·.end_time)) ∧
        (∀ c ∈ ids.filterMap (lookupClip clips),
          merged.start_time ≤ c.start_time ∧ c.end_time ≤ merged.end_time) ∧
        (∃ c0 ∈ ids.filterMap (lookupClip clips),
          merged.start_time = c0.start_time) ∧
        (∃ c1 ∈ ids.filterMap (lookupClip clips),
          merged.end_time = c1.end_time) ∧
        res.length + ids.length = clips.length + 1) := by
  refine ⟨?_, ?_, ?_, ?_⟩
  · intro hbad
    have hcond : ids = [] ∨ List.insertionSort (· ≤ ·) ids ≠ ids := by
      rcases hbad with h | h
      · exact Or.inl h
      · exact Or.inr (fun he => h ((insertionSort_eq_self_iff ids).mp he))
    simp only [merge_clips]
    rw [if_pos hcond]
  · intro hne hsorted ⟨i, hi, hnone⟩
    have hcond : ¬(ids = [] ∨ List.insertionSort (· ≤ ·) ids ≠ ids) := by
      push_neg
      exact ⟨hne, (insertionSort_eq_self_iff ids).mpr hsorted⟩
    have hall : ¬ (ids.all (fun cid => (lookupClip clips cid).isSome) = true) := by
      rw [List.all_eq_true]
      push_neg
      exact ⟨i, hi, by simp [hnone]⟩
    simp only [merge_clips]
    rw [if_neg hcond, if_pos (by simpa using hall)]
  · intro hne hsorted hall ⟨c1, hc1, c2, hc2, hvne⟩
    have hcond : ¬(ids = [] ∨ List.insertionSort (· ≤ ·) ids ≠ ids) := by
      push_neg
      exact ⟨hne, (insertionSort_eq_self_iff ids).mpr hsorted⟩
    have hallb : ids.all (fun cid => (lookupClip clips cid).isSome) = true := by
      rw [List.all_eq_true]
      intro i hi
      simpa using hall i hi
    have hdedup :
        ((ids.filterMap (lookupClip clips)).map (·.video_id)).dedup.length ≠ 1 := by
      intro hlen
      obtain ⟨x, hx⟩ := List.length_eq_one.mp hlen
      have h1 : c1.video_id ∈
          ((ids.filterMap (lookupClip clips)).map (·.video_id)).dedup := by
        rw [List.mem_dedup]
        exact List.mem_map_of_mem _ hc1
      have h2 : c2.video_id ∈
          ((ids.filterMap (lookupClip clips)).map (·.video_id)).dedup := by
        rw [List.mem_dedup]
        exact List.mem_map_of_mem _ hc2
      rw [hx] at h1 h2
      simp at h1 h2
      exact hvne (h1.trans h2.symm)
    simp only [merge_clips]
    rw [if_neg hcond, if_neg (by simp [hallb]), if_pos hdedup]
  · intro hne hasc hall v hv
    have hsorted : List.Sorted (· ≤ ·) ids := hasc.imp le_of_lt
    have hidnodup : ids.Nodup := hasc.imp ne_of_lt
    have hcond : ¬(ids = [] ∨ List.insertionSort (· ≤ ·) ids ≠ ids) := by
      push_neg
      exact ⟨hne, (insertionSort_eq_self_iff ids).mpr hsorted⟩
    have hallb : ids.all (fun cid => (lookupClip clips cid).isSome) = true := by
      rw [List.all_eq_true]
      intro i hi
      simpa using hall i hi
    have hg : ∀ i ∈ ids, lookupClip clips i =
        some ((lookupClip clips i).getD ⟨none, 0, 0, 0, none⟩) := by
      intro i hi
      have := hall i hi
      cases hcase : lookupClip clips i with
      | none => rw [hcase] at this; simp at this
      | some c => simp [hcase]
    have hsel : ids.filterMap (lookupClip clips) =
        ids.map (fun i => (lookupClip clips i).getD ⟨none, 0, 0, 0, none⟩) :=
      filterMap_eq_map_of_some _ _ _ hg
    have hselmem : ∀ c ∈ ids.filterMap (lookupClip clips),
        c ∈ clips ∧ ∃ i ∈ ids, c.clip_id = some i := by
      intro c hc
      rw [hsel] at hc
      obtain ⟨i, hi, hci⟩ := List.mem_map.mp hc
      have hlook : lookupClip clips i = some c := by
        rw [hg i hi, hci]
      obtain ⟨hmem, hid⟩ := lookupClip_some hlook
      exact ⟨hmem, i, hi, hid⟩
    have hselne : ids.filterMap (lookupClip clips) ≠ [] := by
      rw [hsel]
      intro h
      exact hne (List.map_eq_nil_iff.mp h)
    have hselnodup : (ids.filterMap (lookupClip clips)).Nodup := by
      rw [hsel]
      refine List.Nodup.map_on ?_ hidnodup
      intro x hx y hy hxy
      have h1 : lookupClip clips x =
          some ((lookupClip clips x).getD ⟨none, 0, 0, 0, none⟩) := hg x hx
      have h2 : lookupClip clips y =
          some ((lookupClip clips y).getD ⟨none, 0, 0, 0, none⟩) := hg y hy
      have hid1 := (lookupClip_some h1).2
      have hid2 := (lookupClip_some h2).2
      rw [hxy] at hid1
      rw [hid1] at hid2
      exact Option.some.inj hid2
    have hdedup :
        ¬((ids.filterMap (lookupClip clips)).map (·.video_id)).dedup.length ≠ 1 := by
      have hconst : ((ids.filterMap (lookupClip clips)).map (·.video_id)).dedup = [v] := by
        apply dedup_const
        · intro x hx
          obtain ⟨c, hc, hcx⟩ := List.mem_map.mp hx
          rw [← hcx]
          exact hv c hc
        · intro h
          exact hselne (List.map_eq_nil_iff.mp h)
      rw [hconst]
      simp
    have hremove : removeClips clips (ids.filterMap (lookupClip clips)) =
        .ok (clips.filter
          (fun c => decide (c ∉ ids.filterMap (lookupClip clips)))) := by
      apply removeClips_ok _ _ hselnodup
      intro t ht
      obtain ⟨hmem, i, hi, hid⟩ := hselmem t ht
      exact ⟨hmem, count_le_one_of_idNodup hnd hid⟩
    have hheadv : (((ids.filterMap (lookupClip clips)).head?).map
        (·.video_id)).getD 0 = v := by
      cases hhead : (ids.filterMap (lookupClip clips)).head? with
      | none => exact absurd (List.head?_eq_none_iff.mp hhead) hselne
      | some c =>
        have hc : c ∈ ids.filterMap (lookupClip clips) :=
          List.mem_of_mem_head? hhead
        simp [hv c hc]
    refine ⟨clips.filter
        (fun c => decide (c ∉ ids.filterMap (lookupClip clips))) ++
        [⟨none, v, pyMin ((ids.filterMap (lookupClip clips)).map (·.start_time)),
          pyMax ((ids.filterMap (lookupClip clips)).map (·.end_time)), none⟩],
      ⟨none, v, pyMin ((ids.filterMap (lookupClip clips)).map (·.start_time)),
        pyMax ((ids.filterMap (lookupClip clips)).map (·.end_time)), none⟩,
      ?_, rfl, rfl, rfl, rfl, rfl, rfl, ?_, ?_, ?_, ?_⟩
    · simp only [merge_clips]
      rw [if_neg hcond, if_neg (by simp [hallb]), if_neg hdedup, hremove]
      rw [hheadv]
    · intro c hc
      have hmapne : (ids.filterMap (lookupClip clips)).map (·.start_time) ≠ [] := by
        simpa using hselne
      have hmapne2 : (ids.filterMap (lookupClip clips)).map (·.end_time) ≠ [] := by
        simpa using hselne
      exact ⟨pyMin_le hmapne _ (List.mem_map_of_mem _ hc),
        pyMax_ge hmapne2 _ (List.mem_map_of_mem _ hc)⟩
    · have hmapne : (ids.filterMap (lookupClip clips)).map (·.start_time) ≠ [] := by
        simpa using hselne
      obtain ⟨c0, hc0, hc0x⟩ := List.mem_map.mp (pyMin_mem hmapne)
      exact ⟨c0, hc0, hc0x.symm⟩
    · have hmapne : (ids.filterMap (lookupClip clips)).map (·.end_time) ≠ [] := by
        simpa using hselne
      obtain ⟨c1, hc1, hc1x⟩ := List.mem_map.mp (pyMax_mem hmapne)
      exact ⟨c1, hc1, hc1x.symm⟩
    · have hlen := removeClips_ok_length _ _ _ hremove
      have hsellen : (ids.filterMap (lookupClip clips)).length = ids.length := by
        rw [hsel, List.length_map]
      simp only [List.length_append, List.length_cons, List.length_nil]
      omega

/-- Witness for C3 at the spec's example: merging `Clip(0,5)` and
`Clip(5,10)` by their ids yields one clip `(0, 10)` and the count drops by
`len(ids) - 1 = 1`. -/
theorem merge_clips_amended_witness :
    ∃ res merged,
      merge_clips [⟨some 1, 7, 0, 5, none⟩, ⟨some 2, 7, 5, 10, none⟩] [1, 2] =
        .ok (res, merged) ∧
      merged.start_time = 0 ∧ merged.end_time = 10 ∧
      merged.video_id = 7 ∧ merged.clip_id = none ∧ res.length = 1 := by
  obtain ⟨-, -, -, hd⟩ := merge_clips_amended
    [⟨some 1, 7, 0, 5, none⟩, ⟨some 2, 7, 5, 10, none⟩] [1, 2]
    (by simp)
  have hsel : ([1, 2] : List Int).filterMap
      (lookupClip [⟨some 1, 7, 0, 5, none⟩, ⟨some 2, 7, 5, 10, none⟩]) =
      [⟨some 1, 7, 0, 5, none⟩, ⟨some 2, 7, 5, 10, none⟩] := by rfl
  obtain ⟨res, merged, hok, -, hcid, hvid, -, hstart, hend, -, -, -, hlen⟩ :=
    hd (by simp) (by simp) (by intro i hi; fin_cases hi <;> rfl) 7
      (by rw [hsel]; intro c hc; fin_cases hc <;> rfl)
  refine ⟨res, merged, hok, ?_, ?_, hvid, hcid, by simpa using hlen⟩
  · rw [hstart, hsel]; rfl
  · rw [hend, hsel]; rfl

/-! ## Frame sampler: `extract_frames_for_clip` (`video_processor.py`,
lines 115-165) -/

/-- Python `x or d` for an optional integer `x`: `None` and `0` are falsy,
so both select the fallback `d`. -/
def pyOrInt (o : Option Int) (d : Int) : Int :=
  match o with
  | none => d
  | some i => if i = 0 then d else i

/-- The cached segment file name `f"clip_{clip.clip_id or 'temp'}.mp4"`:
keyed by the clip identity, falling back to the placeholder `temp` when the
identity is `None` — or `0`, since `0 or 'temp'` is `'temp'` in Python. -/
def tempClipName (o : Option Int) : String :=
  "clip_" ++ (match o with
    | none => "temp"
    | some i => if i = 0 then "temp" else toString i) ++ ".mp4"

/-- The materialization step: if the clip has no segment path yet, the trim
operation produces `temp_dir/clip_<id>.mp4` and the path is recorded on the
clip; a non-zero trim exit is an application error. -/
def materializeClip (clip : Clip) (temp_dir : String) (trimOk : Bool) :
    Except String (Clip × String) :=
  match clip.file_path with
  | some p => .ok (clip, p)
  | none =>
    let temp_clip_path := temp_dir ++ "/" ++ tempClipName clip.clip_id
    if trimOk then .ok ({ clip with file_path := some temp_clip_path }, temp_clip_path)
    else .error "Failed to trim clip."

/-- The sampling loop: while `current < duration`, seek the decoder to the
relative offset `current` and read one frame; a failed read breaks the loop;
a successful read contributes `(frame, start_time + current)` and `current`
advances by the fixed interval.  `fuel` bounds the recursion; the caller
passes a bound no smaller than the number of loop iterations. -/
def extractLoop (readAt : ℚ → Option Frame) (start interval duration : ℚ) :
    Nat → ℚ → List (Frame × ℚ)
  | 0, _ => []
  | fuel + 1, current =>
    if current < duration then
      match readAt current with
      | some f =>
        (f, start + current) ::
          extractLoop readAt start interval duration fuel (current + interval)
      | none => []
    else []

/-- An upper bound on the number of sampling steps: the loop runs while
`current < duration` with `current = i / fps`, so it performs at most
`⌊duration·fps⌋ + 1` reads, and `q.num.toNat + 2 > ⌊q⌋ + 1` since the
denominator is positive. -/
def stepBound (q : ℚ) : Nat := q.num.toNat + 2

/-- `extract_frames_for_clip(clip, video, sampling_rate_fps)`.  `trimOk` and
`openOk` model the external trim process and the decoder open; `readAt`
models `capture.read()` after a seek to the given relative offset. -/
def extract_frames_for_clip (clip : Clip) (fps : ℚ) (temp_dir : String)
    (trimOk : Bool) (openOk : String → Bool) (readAt : ℚ → Option Frame) :
    Except String (FrameBatch × Clip) :=
  if fps ≤ 0 then .error "sampling_rate_fps must be greater than 0"
  else
    match materializeClip clip temp_dir trimOk with
    | .error e => .error e
    | .ok (clip2, path) =>
      if ¬ openOk path then
        .error "Cannot open clip file for frame extraction."
      else
        let duration := clip2.end_time - clip2.start_time
        let pairs := extractLoop readAt clip2.start_time (1 / fps) duration
          (stepBound (duration * fps)) 0
        .ok (⟨pyOrInt clip2.clip_id (-1), pairs.map Prod.fst, pairs.map Prod.snd⟩,
          clip2)

theorem extractLoop_snd (readAt : ℚ → Option Frame) (start interval duration : ℚ) :
    ∀ (fuel : Nat) (i : Nat),
      (extractLoop readAt start interval duration fuel ((i : ℚ) * interval)).map
        Prod.snd =
      (List.range (extractLoop readAt start interval duration fuel
          ((i : ℚ) * interval)).length).map
        (fun j => start + (((i + j : Nat) : ℚ)) * interval) := by
  intro fuel
  induction fuel with
  | zero => intro i; simp [extractLoop]
  | succ fuel ih =>
    intro i
    rw [extractLoop]
    by_cases hlt : (i : ℚ) * interval < duration
    · rw [if_pos hlt]
      cases hread : readAt ((i : ℚ) * interval) with
      | none => simp
      | some f =>
        have hnext : (i : ℚ) * interval + interval = ((i + 1 : Nat) : ℚ) * interval := by
          push_cast
          ring
        have ihn := ih (i + 1)
        rw [← hnext] at ihn
        have hfun : ((fun j : Nat => start + ((i + j : Nat) : ℚ) * interval) ∘ Nat.succ) =
            (fun j : Nat => start + ((i + 1 + j : Nat) : ℚ) * interval) := by
          funext j
          simp only [Function.comp_apply, Nat.succ_eq_add_one]
          have hnat : i + (j + 1) = i + 1 + j := by omega
          rw [hnat]
        simp only [List.map_cons, List.length_cons, ihn,
          List.range_succ_eq_map, List.map_map, hfun]
        congr 1
    · rw [if_neg hlt]
      simp

theorem extractLoop_mem (readAt : ℚ → Option Frame) (start interval duration : ℚ) :
    ∀ (fuel : Nat) (i : Nat),
      ∀ p ∈ extractLoop readAt start interval duration fuel ((i : ℚ) * interval),
        ∃ k : Nat, p.2 = start + (k : ℚ) * interval ∧ (k : ℚ) * interval < duration := by
  intro fuel
  induction fuel with
  | zero => intro i p hp; simp [extractLoop] at hp
  | succ fuel ih =>
    intro i p hp
    rw [extractLoop] at hp
    by_cases hlt : (i : ℚ) * interval < duration
    · rw [if_pos hlt] at hp
      cases hread : readAt ((i : ℚ) * interval) with
      | none => rw [hread] at hp; simp at hp
      | some f =>
        rw [hread] at hp
        rcases List.mem_cons.mp hp with rfl | hp2
        · exact ⟨i, rfl, hlt⟩
        · have hnext : (i : ℚ) * interval + interval = ((i + 1 : Nat) : ℚ) * interval := by
            push_cast
            ring
          rw [hnext] at hp2
          exact ih (i + 1) p hp2
    · rw [if_neg hlt] at hp
      simp at hp

theorem materializeClip_fields {clip : Clip} {td : String} {tr : Bool}
    {c2 : Clip} {p : String} (h : materializeClip clip td tr = .ok (c2, p)) :
    c2.start_time = clip.start_time ∧ c2.end_time = clip.end_time ∧
    c2.clip_id = clip.clip_id := by
  unfold materializeClip at h
  cases hfp : clip.file_path with
  | some q =>
    rw [hfp] at h
    simp only [Except.ok.injEq, Prod.mk.injEq] at h
    rw [← h.1]
    exact ⟨rfl, rfl, rfl⟩
  | none =>
    rw [hfp] at h
    by_cases htr : tr = true
    · rw [htr] at h
      simp only [if_true, Except.ok.injEq, Prod.mk.injEq] at h
      rw [← h.1]
      exact ⟨rfl, rfl, rfl⟩
    · simp only [htr, if_false] at h
      cases h

/-- C5: `extract(clip, video, fps)` fails with the invalid-argument error for
`fps ≤ 0`, for every trim/open/read oracle (so before any external call);
for `fps > 0`, any successfully returned `FrameBatch` has frame and
timestamp sequences of equal length, its `i`-th timestamp is
`clip.start_time + i / fps`, the timestamps are strictly increasing, and
every timestamp lies in `[start_time, start_time + (end_time - start_time))`
— sampling runs over relative offsets starting at `0` and strictly below
`end_time - start_time`, and a failed read merely shortens the batch. -/
theorem extract_frames_spec (clip : Clip) (fps : ℚ) (temp_dir : String)
    (trimOk : Bool) (openOk : String → Bool) (readAt : ℚ → Option Frame) :
    (fps ≤ 0 → ∀ (td2 : String) (tr2 : Bool) (op2 : String → Bool)
      (rd2 : ℚ → Option Frame),
      extract_frames_for_clip clip fps td2 tr2 op2 rd2 =
        .error "sampling_rate_fps must be greater than 0") ∧
    (0 < fps → ∀ batch clip2,
      extract_frames_for_clip clip fps temp_dir trimOk openOk readAt =
        .ok (batch, clip2) →
      clip2.start_time = clip.start_time ∧ clip2.end_time = clip.end_time ∧
      batch.frames.length = batch.timestamps.length ∧
      batch.timestamps = (List.range batch.timestamps.length).map
        (fun j : Nat => clip.start_time + (j : ℚ) / fps) ∧
      List.Pairwise (· < ·) batch.timestamps ∧
      (∀ ts ∈ batch.timestamps,
        clip.start_time ≤ ts ∧
        ts < clip.start_time + (clip.end_time - clip.start_time))) := by
  constructor
  · intro hle td2 tr2 op2 rd2
    rw [extract_frames_for_clip, if_pos hle]
  · intro hpos batch clip2 hok
    rw [extract_frames_for_clip, if_neg (not_le.mpr hpos)] at hok
    cases hmat : materializeClip clip temp_dir trimOk with
    | error e => rw [hmat] at hok; cases hok
    | ok pr =>
      obtain ⟨c2, path⟩ := pr
      simp only [hmat] at hok
      cases hob : openOk path with
      | false => rw [hob] at hok; simp at hok
      | true =>
        rw [hob] at hok
        simp only [Bool.not_true, Except.ok.injEq, Prod.mk.injEq] at hok
        obtain ⟨hbatch, hclip2⟩ := (by simpa using hok :
          (⟨pyOrInt c2.clip_id (-1),
            (extractLoop readAt c2.start_time (1 / fps)
              (c2.end_time - c2.start_time)
              (stepBound ((c2.end_time - c2.start_time) * fps)) 0).map Prod.fst,
            (extractLoop readAt c2.start_time (1 / fps)
              (c2.end_time - c2.start_time)
              (stepBound ((c2.end_time - c2.start_time) * fps)) 0).map Prod.snd⟩ :
            FrameBatch) = batch ∧ c2 = clip2)
        obtain ⟨hst, hen, -⟩ := materializeClip_fields hmat
        subst hclip2
        set pairs := extractLoop readAt c2.start_time (1 / fps)
          (c2.end_time - c2.start_time)
          (stepBound ((c2.end_time - c2.start_time) * fps)) 0 with hpairs
        have h0 : (0 : ℚ) = ((0 : Nat) : ℚ) * (1 / fps) := by simp
        have hsnd := extractLoop_snd readAt c2.start_time (1 / fps)
          (c2.end_time - c2.start_time)
          (stepBound ((c2.end_time - c2.start_time) * fps)) 0
        rw [← h0] at hsnd
        have hfun : (fun j : Nat => c2.start_time + ((0 + j : Nat) : ℚ) * (1 / fps)) =
            (fun j : Nat => c2.start_time + (j : ℚ) / fps) := by
          funext j
          rw [Nat.zero_add, mul_one_div]
        rw [hfun] at hsnd
        have hmem := extractLoop_mem readAt c2.start_time (1 / fps)
          (c2.end_time - c2.start_time)
          (stepBound ((c2.end_time - c2.start_time) * fps)) 0
        rw [← h0] at hmem
        have hinv : (0 : ℚ) < 1 / fps := by positivity
        refine ⟨hst, hen, ?_, ?_, ?_, ?_⟩
        · rw [← hbatch]
          simp
        · rw [← hbatch]
          simp only [List.length_map]
          rw [← hst]
          rw [← hpairs] at hsnd
          exact hsnd
        · rw [← hbatch]
          simp only
          rw [hsnd]
          apply List.Pairwise.map _ ?_ (List.pairwise_lt_range _)
          intro a b hab
          apply add_lt_add_left
          rw [div_eq_mul_one_div, div_eq_mul_one_div ((b : Nat) : ℚ)]
          exact mul_lt_mul_of_pos_right (by exact_mod_cast hab) hinv
        · intro ts hts
          rw [← hbatch] at hts
          simp only at hts
          obtain ⟨p, hp, hpts⟩ := List.mem_map.mp hts
          obtain ⟨k, hk1, hk2⟩ := hmem p hp
          have hknn : (0 : ℚ) ≤ (k : ℚ) * (1 / fps) :=
            mul_nonneg (Nat.cast_nonneg k) (le_of_lt hinv)
          rw [← hpts, hk1, ← hst, ← hen]
          constructor
          · linarith
          · linarith

/-- Witness for C5 at the spec's example: a clip of duration `0.3` sampled at
`fps = 10` with every read succeeding yields 3 frames with timestamps
`start+0.0, start+0.1, start+0.2`, strictly increasing, equal lengths. -/
theorem extract_frames_spec_witness :
    ∃ batch clip2,
      extract_frames_for_clip ⟨some 3, 7, 0, 3, some "c.mp4"⟩ 1 "/tmp"
        true (fun _ => true) (fun _ => some ⟨100, 200, 0⟩) = .ok (batch, clip2) ∧
      batch.timestamps = [0, 1, 2] ∧
      batch.frames.length = 3 ∧
      batch.frames.length = batch.timestamps.length ∧
      List.Pairwise (· < ·) batch.timestamps := by
  have hok : extract_frames_for_clip ⟨some 3, 7, 0, 3, some "c.mp4"⟩ 1
      "/tmp" true (fun _ => true) (fun _ => some ⟨100, 200, 0⟩) =
      .ok (⟨3, [⟨100, 200, 0⟩, ⟨100, 200, 0⟩, ⟨100, 200, 0⟩], [0, 1, 2]⟩,
        ⟨some 3, 7, 0, 3, some "c.mp4"⟩) := by
    norm_num [extract_frames_for_clip, materializeClip, extractLoop, stepBound,
      pyOrInt, Rat.num_ofNat]
  have h := (extract_frames_spec ⟨some 3, 7, 0, 3, some "c.mp4"⟩ 1 "/tmp"
    true (fun _ => true) (fun _ => some ⟨100, 200, 0⟩)).2 (by norm_num) _ _ hok
  exact ⟨_, _, hok, rfl, rfl, h.2.2.1, h.2.2.2.2.1⟩

/-- C9: when the clip's persisted identity is `0` — or unassigned (`None`) —
`extract` treats it as absent: the Python expression `clip.clip_id or 'temp'`
selects the placeholder, so the trimmed segment is cached as
`clip_temp.mp4`, and `clip.clip_id or -1` gives the returned batch the
sentinel clip id `-1`. -/
theorem clip_identity_sentinel_spec (clip : Clip) (fps : ℚ) (td : String)
    (openOk : String → Bool) (readAt : ℚ → Option Frame)
    (hid : clip.clip_id = none ∨ clip.clip_id = some 0)
    (hfp : clip.file_path = none) :
    ∀ batch clip2,
      extract_frames_for_clip clip fps td true openOk readAt =
        .ok (batch, clip2) →
      clip2.file_path = some (td ++ "/" ++ "clip_temp.mp4") ∧
      batch.clip_id = -1 := by
  intro batch clip2 hok
  rw [extract_frames_for_clip] at hok
  by_cases hf : fps ≤ 0
  · rw [if_pos hf] at hok
    cases hok
  · rw [if_neg hf] at hok
    have htemp : tempClipName clip.clip_id = "clip_temp.mp4" := by
      rcases hid with h | h <;> rw [h] <;> rfl
    have hmat : materializeClip clip td true =
        .ok ({ clip with file_path := some (td ++ "/" ++ "clip_temp.mp4") },
          td ++ "/" ++ "clip_temp.mp4") := by
      rw [materializeClip, hfp]
      simp [htemp]
    simp only [hmat] at hok
    cases hob : openOk (td ++ "/" ++ "clip_temp.mp4") with
    | false => rw [hob] at hok; simp at hok
    | true =>
      rw [hob] at hok
      simp only [Bool.not_true, if_false, Except.ok.injEq, Prod.mk.injEq] at hok
      obtain ⟨rfl, rfl⟩ := hok
      constructor
      · rfl
      · rcases hid with h | h <;> simp [pyOrInt, h]

/-- Witness for C9: a clip with persisted identity `0` and no cached path is
cached under the placeholder name and yields the sentinel batch id `-1`. -/
theorem clip_identity_sentinel_spec_witness :
    ∃ batch clip2,
      extract_frames_for_clip ⟨some 0, 7, 0, 1, none⟩ 1 "/tmp" true
        (fun _ => true) (fun _ => none) = .ok (batch, clip2) ∧
      clip2.file_path = some ("/tmp" ++ "/" ++ "clip_temp.mp4") ∧
      batch.clip_id = -1 := by
  have hok : extract_frames_for_clip ⟨some 0, 7, 0, 1, none⟩ 1 "/tmp" true
      (fun _ => true) (fun _ => none) =
      .ok (⟨-1, [], []⟩,
        ⟨some 0, 7, 0, 1, some ("/tmp" ++ "/" ++ "clip_temp.mp4")⟩) := by
    norm_num [extract_frames_for_clip, materializeClip, extractLoop, stepBound,
      pyOrInt, tempClipName, Rat.num_ofNat]
    rfl
  obtain ⟨h1, h2⟩ := clip_identity_sentinel_spec ⟨some 0, 7, 0, 1, none⟩ 1
    "/tmp" (fun _ => true) (fun _ => none) (Or.inr rfl) rfl _ _ hok
  exact ⟨_, _, hok, h1, h2⟩

/-! ## OCR aggregator (`ocr_processor.py`) -/

/-- Python `str.strip()`: remove leading and trailing whitespace. -/
def pyStrip (s : String) : String :=
  ⟨((s.data.dropWhile Char.isWhitespace).reverse.dropWhile
      Char.isWhitespace).reverse⟩

/-- Python slice-index normalization for `l[start:stop]` with `len(l) = n`:
negative indices wrap once by `n`, then everything clamps to `[0, n]`. -/
def pyIdx (i n : Int) : Int :=
  if i < 0 then max (i + n) 0 else min i n

/-- Length of the Python slice `l[start:stop]` over a sequence of length
`n`. -/
def pySliceLen (start stop n : Int) : Int :=
  max 0 (pyIdx stop n - pyIdx start n)

/-- The recognition-engine oracle: for a frame (by index) and an ROI (the
cropped grayscale sub-image fed to the engine), the ordered list of
`(token, raw_confidence_percent)` pairs the engine reports. -/
def Engine : Type := Nat → ROI → List (String × ℚ)

/-- `numeric_confs`: every raw confidence normalized by dividing by 100.
(The `float(conf_str)` parse never fails for the numeric confidences the
engine interface supplies.) -/
def normConfs (pairs : List (String × ℚ)) : List ℚ :=
  pairs.map (fun p => p.2 / 100)

/-- `tokens`: the texts whose normalized confidence is positive and whose
text is non-blank, in reading order. -/
def roiTokens (pairs : List (String × ℚ)) : List String :=
  (pairs.filter (fun p => decide (0 < p.2 / 100) &&
    decide (pyStrip p.1 ≠ ""))).map Prod.fst

/-- `text_str = "".join(tokens).strip()`: the ROI's candidate text. -/
def candidateText (pairs : List (String × ℚ)) : String :=
  pyStrip (String.join (roiTokens pairs))

/-- `overall_conf`: the arithmetic mean of all normalized confidences, or
`0.0` when the engine returned none. -/
def overallConf (pairs : List (String × ℚ)) : ℚ :=
  if pairs = [] then 0
  else (normConfs pairs).sum / ((normConfs pairs).length : ℚ)

/-- The per-ROI body of `process_frame_for_ocr`: bounds check (skip), empty
crop check (skip), then recognition, token aggregation, and conditional
Detection construction. -/
def processROI (frameH frameW : Int) (frameIdx : Nat) (timestamp : ℚ)
    (video_id clip_id : Int) (thr : ℚ) (engine : Engine) (roi : ROI) :
    Except String (List OCRResult) :=
  if roi.y < 0 ∨ roi.x < 0 ∨ roi.y + roi.height > frameH ∨
      roi.x + roi.width > frameW then .ok []
  else if pySliceLen roi.y (roi.y + roi.height) frameH *
      pySliceLen roi.x (roi.x + roi.width) frameW = 0 then .ok []
  else
    let pairs := engine frameIdx roi
    let text_str := candidateText pairs
    let overall_conf := overallConf pairs
    if text_str ≠ "" ∧ overall_conf ≥ thr then
      match mkOCRResult video_id clip_id timestamp text_str overall_conf roi with
      | .ok r => .ok [r]
      | .error e => .error e
    else .ok []

/-- The `for roi in rois` loop: results accumulate in ROI order; a raised
error aborts the whole call. -/
def processROIList (frameH frameW : Int) (frameIdx : Nat) (timestamp : ℚ)
    (video_id clip_id : Int) (thr : ℚ) (engine : Engine) :
    List ROI → Except String (List OCRResult)
  | [] => .ok []
  | roi :: rest => do
    let r ← processROI frameH frameW frameIdx timestamp video_id clip_id thr
      engine roi
    let rs ← processROIList frameH frameW frameIdx timestamp video_id clip_id
      thr engine rest
    .ok (r ++ rs)

/-- `process_frame_for_ocr(frame, timestamp, video_id, clip_id, rois,
confidence_threshold)`. -/
def process_frame_for_ocr (frame : Frame) (timestamp : ℚ)
    (video_id clip_id : Int) (rois : List ROI) (confidence_threshold : ℚ)
    (engine : Engine) : Except String (List OCRResult) :=
  if ¬(0 ≤ confidence_threshold ∧ confidence_threshold ≤ 1) then
    .error "confidence_threshold must be between 0.0 and 1.0"
  else processROIList frame.height frame.width frame.idx timestamp video_id
    clip_id confidence_threshold engine rois

/-- The `for frame, ts in zip(...)` loop of `process_batch_for_ocr`. -/
def processBatchLoop (clip_id : Int) (rois : List ROI) (thr : ℚ)
    (engine : Engine) : List (Frame × ℚ) → Except String (List OCRResult)
  | [] => .ok []
  | (f, t) :: rest => do
    let partialResults ← process_frame_for_ocr f t clip_id clip_id rois thr
      engine
    let more ← processBatchLoop clip_id rois thr engine rest
    .ok (partialResults ++ more)

/-- `process_batch_for_ocr(frame_batch, rois, confidence_threshold)`: both
the video id and the clip id of every Detection come from
`frame_batch.clip_id`. -/
def process_batch_for_ocr (frame_batch : FrameBatch) (rois : List ROI)
    (confidence_threshold : ℚ) (engine : Engine) :
    Except String (List OCRResult) :=
  if ¬(0 ≤ confidence_threshold ∧ confidence_threshold ≤ 1) then
    .error "confidence_threshold must be between 0.0 and 1.0"
  else processBatchLoop frame_batch.clip_id rois confidence_threshold engine
    (frame_batch.frames.zip frame_batch.timestamps)

/-- `ROIManager.add_roi`: the width/height check appears twice in the
source, with the x/y check in between; the first failing check raises. -/
def add_roi (rois : List ROI) (roi : ROI) : Except String (List ROI) :=
  if roi.width ≤ 0 ∨ roi.height ≤ 0 then
    .error "ROI width and height must be positive integers."
  else if roi.x < 0 ∨ roi.y < 0 then
    .error "ROI x and y must be non-negative integers."
  else if roi.width ≤ 0 ∨ roi.height ≤ 0 then
    .error "ROI width and height must be positive integers."
  else .ok (rois ++ [roi])

/-- `ROIManager.remove_roi`: `del self.rois[index]` with Python index
semantics — negative indices count from the end, and an out-of-range index
raises `IndexError`. -/
def remove_roi (rois : List ROI) (index : Int) : Except String (List ROI) :=
  let n : Int := rois.length
  if index < -n ∨ n ≤ index then
    .error "list assignment index out of range"
  else .ok (rois.eraseIdx (if index < 0 then index + n else index).toNat)

/-- A heap of ROI lists, for stating the aliasing behaviour of
`ROIManager.list_rois`: cell `r` holds the list referenced by `r`. -/
structure ROIHeap where
  cells : List (List ROI)
deriving Repr

/-- Dereference a list reference. -/
def heapGet (h : ROIHeap) (r : Nat) : List ROI := (h.cells[r]?).getD []

/-- In-place mutation of the list behind a reference. -/
def heapSet (h : ROIHeap) (r : Nat) (v : List ROI) : ROIHeap :=
  ⟨h.cells.set r v⟩

/-- `ROIManager.list_rois`: `self.rois.copy()` allocates a fresh list whose
content is a copy of the store's, and returns the fresh reference. -/
def list_rois (h : ROIHeap) (store : Nat) : ROIHeap × Nat :=
  (⟨h.cells ++ [heapGet h store]⟩, h.cells.length)

/-- C7: for any threshold outside `[0, 1]`, both `recognize_frame` and
`recognize_batch` raise the invalid-argument error for every frame, batch,
ROI list and engine — the result does not depend on the engine, so the
failure happens before any recognition-engine call. -/
theorem threshold_guard_spec (thr : ℚ) (h : thr < 0 ∨ 1 < thr) :
    (∀ (frame : Frame) (ts : ℚ) (vid cid : Int) (rois : List ROI)
      (engine : Engine),
      process_frame_for_ocr frame ts vid cid rois thr engine =
        .error "confidence_threshold must be between 0.0 and 1.0") ∧
    (∀ (batch : FrameBatch) (rois : List ROI) (engine : Engine),
      process_batch_for_ocr batch rois thr engine =
        .error "confidence_threshold must be between 0.0 and 1.0") := by
  have hbad : ¬(0 ≤ thr ∧ thr ≤ 1) := by
    rcases h with h | h
    · intro hc; linarith [hc.1]
    · intro hc; linarith [hc.2]
  constructor
  · intro frame ts vid cid rois engine
    rw [process_frame_for_ocr, if_pos hbad]
  · intro batch rois engine
    rw [process_batch_for_ocr, if_pos hbad]

/-- Witness for C7 at `threshold = 2` (and `-1`): both entry points fail with
the invalid-argument error, for an arbitrary engine. -/
theorem threshold_guard_spec_witness :
    process_frame_for_ocr ⟨10, 10, 0⟩ 0 1 2 [] 2 (fun _ _ => []) =
      .error "confidence_threshold must be between 0.0 and 1.0" ∧
    process_batch_for_ocr ⟨5, [], []⟩ [] 2 (fun _ _ => []) =
      .error "confidence_threshold must be between 0.0 and 1.0" ∧
    process_frame_for_ocr ⟨10, 10, 0⟩ 0 1 2 [] (-1) (fun _ _ => []) =
      .error "confidence_threshold must be between 0.0 and 1.0" := by
  obtain ⟨h1, h2⟩ := threshold_guard_spec 2 (Or.inr (by norm_num))
  obtain ⟨h3, -⟩ := threshold_guard_spec (-1) (Or.inl (by norm_num))
  exact ⟨h1 _ _ _ _ _ _, h2 _ _ _, h3 _ _ _ _ _ _⟩

/-- C8: `add_roi` rejects `x < 0`, `y < 0`, `width ≤ 0` and `height ≤ 0` and
appends the ROI otherwise; `list_rois` returns a fresh reference holding a
copy of the store's list, so writing any value through the returned
reference leaves the store's cell — and hence every later `list_rois`
result — unchanged. -/
theorem roi_store_spec :
    (∀ (s : List ROI) (roi : ROI),
      ((roi.x < 0 ∨ roi.y < 0 ∨ roi.width ≤ 0 ∨ roi.height ≤ 0) →
        ∃ msg, add_roi s roi = .error msg) ∧
      (0 ≤ roi.x → 0 ≤ roi.y → 0 < roi.width → 0 < roi.height →
        add_roi s roi = .ok (s ++ [roi]))) ∧
    (∀ (h : ROIHeap) (store : Nat), store < h.cells.length →
      (list_rois h store).2 ≠ store ∧
      heapGet (list_rois h store).1 (list_rois h store).2 = heapGet h store ∧
      (∀ v : List ROI,
        heapGet (heapSet (list_rois h store).1 (list_rois h store).2 v)
          store = heapGet h store)) := by
  constructor
  · intro s roi
    constructor
    · intro hbad
      by_cases hwh : roi.width ≤ 0 ∨ roi.height ≤ 0
      · exact ⟨_, by rw [add_roi, if_pos hwh]⟩
      · have hxy : roi.x < 0 ∨ roi.y < 0 := by
          rcases hbad with h | h | h | h
          · exact Or.inl h
          · exact Or.inr h
          · exact absurd (Or.inl h) hwh
          · exact absurd (Or.inr h) hwh
        exact ⟨_, by rw [add_roi, if_neg hwh, if_pos hxy]⟩
    · intro hx hy hw hh
      rw [add_roi, if_neg (by omega), if_neg (by omega), if_neg (by omega)]
  · intro h store hstore
    have hr : (list_rois h store).2 = h.cells.length := rfl
    refine ⟨by omega, ?_, ?_⟩
    · show ((h.cells ++ [heapGet h store])[h.cells.length]?).getD [] =
        heapGet h store
      rw [List.getElem?_concat_length]
      rfl
    · intro v
      show (((h.cells ++ [heapGet h store]).set h.cells.length v)[store]?).getD
        [] = heapGet h store
      rw [List.getElem?_set_ne (by omega)]
      rw [List.getElem?_append_left hstore]
      rfl

/-- Witness for C8: a negative-`x` ROI is rejected, a valid one is appended,
and clearing the list returned by `list_rois` leaves the store's list — as
read back through the store — intact. -/
theorem roi_store_spec_witness :
    (∃ msg, add_roi [] ⟨-1, 0, 5, 5⟩ = .error msg) ∧
    (∃ msg, add_roi [] ⟨0, 0, 0, 5⟩ = .error msg) ∧
    add_roi [] ⟨0, 0, 5, 5⟩ = .ok [⟨0, 0, 5, 5⟩] ∧
    (list_rois ⟨[[⟨0, 0, 5, 5⟩]]⟩ 0).2 ≠ 0 ∧
    heapGet (heapSet (list_rois ⟨[[⟨0, 0, 5, 5⟩]]⟩ 0).1
      (list_rois ⟨[[⟨0, 0, 5, 5⟩]]⟩ 0).2 []) 0 = [⟨0, 0, 5, 5⟩] := by
  obtain ⟨ha, hb⟩ := roi_store_spec
  obtain ⟨hne, -, hmut⟩ := hb ⟨[[⟨0, 0, 5, 5⟩]]⟩ 0 (by norm_num)
  refine ⟨(ha [] ⟨-1, 0, 5, 5⟩).1 (by norm_num),
    (ha [] ⟨0, 0, 0, 5⟩).1 (by norm_num),
    (ha [] ⟨0, 0, 5, 5⟩).2 (by norm_num) (by norm_num) (by norm_num)
      (by norm_num),
    hne, ?_⟩
  exact (hmut []).trans (by rfl)

/-- C10: on a store of `n ≥ 1` ROIs, `remove_roi` with a negative index
`-n ≤ index ≤ -1` removes the ROI at position `n + index` (counting from the
end), shrinking the list by one; it raises the out-of-range error exactly
when `index ≥ n` or `index < -n`. -/
theorem remove_roi_spec (rois : List ROI) (index : Int) :
    (1 ≤ rois.length → -(rois.length : Int) ≤ index → index ≤ -1 →
      remove_roi rois index =
        .ok (rois.eraseIdx ((rois.length : Int) + index).toNat) ∧
      (rois.eraseIdx ((rois.length : Int) + index).toNat).length + 1 =
        rois.length) ∧
    ((∃ msg, remove_roi rois index = .error msg) ↔
      ((rois.length : Int) ≤ index ∨ index < -(rois.length : Int))) := by
  constructor
  · intro h1 h2 h3
    have hcond : ¬(index < -((rois.length : Nat) : Int) ∨
        ((rois.length : Nat) : Int) ≤ index) := by omega
    constructor
    · simp only [remove_roi]
      rw [if_neg hcond, if_pos (show index < 0 by omega)]
      rw [show (index + (rois.length : Int)).toNat =
        ((rois.length : Int) + index).toNat from by omega]
    · rw [List.length_eraseIdx]
      rw [if_pos (show ((rois.length : Int) + index).toNat < rois.length
        from by omega)]
      omega
  · constructor
    · rintro ⟨msg, hmsg⟩
      by_contra hcon
      push_neg at hcon
      simp only [remove_roi] at hmsg
      rw [if_neg (by omega)] at hmsg
      cases hmsg
    · intro hcond
      exact ⟨_, by simp only [remove_roi]; rw [if_pos (by omega)]⟩

/-- Witness for C10 on a 2-element store: `remove(-2)` removes the first
ROI; `remove(2)` and `remove(-3)` raise. -/
theorem remove_roi_spec_witness :
    remove_roi [⟨0, 0, 1, 1⟩, ⟨1, 1, 2, 2⟩] (-2) = .ok [⟨1, 1, 2, 2⟩] ∧
    (∃ msg, remove_roi [⟨0, 0, 1, 1⟩, ⟨1, 1, 2, 2⟩] 2 = .error msg) ∧
    (∃ msg, remove_roi [⟨0, 0, 1, 1⟩, ⟨1, 1, 2, 2⟩] (-3) = .error msg) := by
  refine ⟨?_, ?_, ?_⟩
  · have h := ((remove_roi_spec [⟨0, 0, 1, 1⟩, ⟨1, 1, 2, 2⟩] (-2)).1
      (by norm_num) (by norm_num) (by norm_num)).1
    rw [h]
    rfl
  · exact (remove_roi_spec [⟨0, 0, 1, 1⟩, ⟨1, 1, 2, 2⟩] 2).2.mpr
      (by norm_num)
  · exact (remove_roi_spec [⟨0, 0, 1, 1⟩, ⟨1, 1, 2, 2⟩] (-3)).2.mpr
      (by norm_num)

theorem sum_le_length {l : List ℚ} (h : ∀ x ∈ l, x ≤ 1) :
    l.sum ≤ (l.length : ℚ) := by
  induction l with
  | nil => simp
  | cons x t ih =>
    simp only [List.sum_cons, List.length_cons]
    push_cast
    have hx := h x (by simp)
    have ht := ih (fun y hy => h y (by simp [hy]))
    linarith

theorem sum_nonneg_of_mem {l : List ℚ} (h : ∀ x ∈ l, 0 ≤ x) : 0 ≤ l.sum := by
  induction l with
  | nil => simp
  | cons x t ih =>
    simp only [List.sum_cons]
    have hx := h x (by simp)
    have ht := ih (fun y hy => h y (by simp [hy]))
    linarith

/-- The mean of normalized confidences lies in `[0, 1]` whenever the raw
confidences respect the engine interface's `0..100` range. -/
theorem overallConf_bounds (pairs : List (String × ℚ))
    (h : ∀ p ∈ pairs, 0 ≤ p.2 ∧ p.2 ≤ 100) :
    0 ≤ overallConf pairs ∧ overallConf pairs ≤ 1 := by
  unfold overallConf
  by_cases hp : pairs = []
  · rw [if_pos hp]
    norm_num
  · rw [if_neg hp]
    have hlen0 : pairs.length ≠ 0 := fun hc => hp (List.length_eq_zero.mp hc)
    have hlen : 0 < ((normConfs pairs).length : ℚ) := by
      simp only [normConfs, List.length_map]
      exact_mod_cast Nat.pos_of_ne_zero hlen0
    constructor
    · apply div_nonneg _ (le_of_lt hlen)
      apply sum_nonneg_of_mem
      intro x hx
      obtain ⟨p, hpm, hpx⟩ := List.mem_map.mp hx
      rw [← hpx]
      exact div_nonneg (h p hpm).1 (by norm_num)
    · rw [div_le_one hlen]
      apply sum_le_length
      intro x hx
      obtain ⟨p, hpm, hpx⟩ := List.mem_map.mp hx
      rw [← hpx]
      rw [div_le_one (by norm_num)]
      exact (h p hpm).2

/-- C2: for a frame, an ROI lying inside the frame with a positive-area
crop, a threshold in `[0, 1]`, and any engine output `(token, raw_conf)`
with raw confidences in the interface range `0..100`, `recognize_frame`
emits exactly one Detection for the ROI iff the candidate text — the
in-order separator-free concatenation (then strip) of the tokens with
positive normalized confidence and non-blank text — is non-empty and the
overall confidence — the mean of all normalized confidences, `0` when the
engine returned none — is `≥ threshold`; the Detection carries exactly that
text and that confidence. -/
theorem process_frame_spec (frame : Frame) (ts : ℚ) (vid cid : Int)
    (roi : ROI) (thr : ℚ) (engine : Engine)
    (hthr0 : 0 ≤ thr) (hthr1 : thr ≤ 1)
    (hx : 0 ≤ roi.x) (hy : 0 ≤ roi.y)
    (hw : 0 < roi.width) (hh : 0 < roi.height)
    (hyb : roi.y + roi.height ≤ frame.height)
    (hxb : roi.x + roi.width ≤ frame.width)
    (hconf : ∀ p ∈ engine frame.idx roi, 0 ≤ p.2 ∧ p.2 ≤ 100) :
    process_frame_for_ocr frame ts vid cid [roi] thr engine =
      .ok (if candidateText (engine frame.idx roi) ≠ "" ∧
            overallConf (engine frame.idx roi) ≥ thr
        then [⟨vid, cid, ts, candidateText (engine frame.idx roi),
              overallConf (engine frame.idx roi), roi⟩]
        else []) := by
  have hroi : processROI frame.height frame.width frame.idx ts vid cid thr
      engine roi =
      .ok (if candidateText (engine frame.idx roi) ≠ "" ∧
            overallConf (engine frame.idx roi) ≥ thr
        then [⟨vid, cid, ts, candidateText (engine frame.idx roi),
              overallConf (engine frame.idx roi), roi⟩]
        else []) := by
    rw [processROI]
    rw [if_neg (show ¬(roi.y < 0 ∨ roi.x < 0 ∨
        roi.y + roi.height > frame.height ∨ roi.x + roi.width > frame.width)
      by omega)]
    have hslice1 : pySliceLen roi.y (roi.y + roi.height) frame.height =
        roi.height := by
      unfold pySliceLen pyIdx
      rw [if_neg (by omega), if_neg (by omega),
        min_eq_left (by omega), min_eq_left (by omega)]
      omega
    have hslice2 : pySliceLen roi.x (roi.x + roi.width) frame.width =
        roi.width := by
      unfold pySliceLen pyIdx
      rw [if_neg (by omega), if_neg (by omega),
        min_eq_left (by omega), min_eq_left (by omega)]
      omega
    rw [hslice1, hslice2,
      if_neg (show ¬(roi.height * roi.width = 0) by
        intro hc
        rcases mul_eq_zero.mp hc with hc | hc <;> omega)]
    by_cases hcase : candidateText (engine frame.idx roi) ≠ "" ∧
        overallConf (engine frame.idx roi) ≥ thr
    · rw [if_pos hcase, if_pos hcase]
      have hbounds := overallConf_bounds (engine frame.idx roi) hconf
      rw [mkOCRResult, if_neg hcase.1,
        if_neg (not_not_intro ⟨hbounds.1, hbounds.2⟩)]
    · rw [if_neg hcase, if_neg hcase]
  rw [process_frame_for_ocr, if_neg (not_not_intro ⟨hthr0, hthr1⟩)]
  rw [processROIList, hroi]
  show Except.bind _ _ = _
  rw [Except.bind]
  simp only [processROIList]
  show Except.bind _ _ = _
  rw [Except.bind, List.append_nil]

/-- Witness for C2 at the spec's example: tokens `("Hello",85),("World",90)`
with `threshold = 0.5` yield one Detection with text `"HelloWorld"` and
confidence `0.875`; with `threshold = 0.9` they yield none. -/
theorem process_frame_spec_witness :
    process_frame_for_ocr ⟨10, 10, 0⟩ 0 7 8 [⟨0, 0, 5, 5⟩] (1/2)
      (fun _ _ => [("Hello", 85), ("World", 90)]) =
      .ok [⟨7, 8, 0, "HelloWorld", 7/8, ⟨0, 0, 5, 5⟩⟩] ∧
    process_frame_for_ocr ⟨10, 10, 0⟩ 0 7 8 [⟨0, 0, 5, 5⟩] (9/10)
      (fun _ _ => [("Hello", 85), ("World", 90)]) = .ok [] := by
  have hb1 : ((fun p : String × ℚ => decide (0 < p.2 / 100) &&
      decide (pyStrip p.1 ≠ "")) ("Hello", 85)) = true := by
    rw [Bool.and_eq_true]
    exact ⟨decide_eq_true (by norm_num), by rfl⟩
  have hb2 : ((fun p : String × ℚ => decide (0 < p.2 / 100) &&
      decide (pyStrip p.1 ≠ "")) ("World", 90)) = true := by
    rw [Bool.and_eq_true]
    exact ⟨decide_eq_true (by norm_num), by rfl⟩
  have hct : candidateText [("Hello", (85:ℚ)), ("World", 90)] =
      "HelloWorld" := by
    simp only [candidateText, roiTokens, List.filter_cons, List.filter_nil,
      hb1, hb2, if_true, List.map_cons, List.map_nil]
    rfl
  have hoc : overallConf [("Hello", (85:ℚ)), ("World", 90)] = 7/8 := by
    rw [overallConf,
      if_neg (show ¬([("Hello", (85:ℚ)), ("World", 90)] = []) by simp)]
    simp only [normConfs, List.map_cons, List.map_nil, List.sum_cons,
      List.sum_nil, List.length_cons, List.length_nil]
    norm_num
  have hconf : ∀ p ∈ (fun (_ : Nat) (_ : ROI) =>
      [("Hello", (85:ℚ)), ("World", 90)]) (0 : Nat)
      (⟨0, 0, 5, 5⟩ : ROI), 0 ≤ p.2 ∧ p.2 ≤ 100 := by
    intro p hp
    simp only [List.mem_cons, List.not_mem_nil, or_false] at hp
    rcases hp with rfl | rfl <;> norm_num
  constructor
  · have h := process_frame_spec ⟨10, 10, 0⟩ 0 7 8 ⟨0, 0, 5, 5⟩ (1/2)
      (fun _ _ => [("Hello", 85), ("World", 90)]) (by norm_num) (by norm_num)
      (by norm_num) (by norm_num) (by norm_num) (by norm_num) (by norm_num)
      (by norm_num) hconf
    rw [h]
    show Except.ok (if candidateText [("Hello", (85:ℚ)), ("World", 90)] ≠ "" ∧
        overallConf [("Hello", (85:ℚ)), ("World", 90)] ≥ 1/2 then _ else _) = _
    rw [hct, hoc]
    rw [if_pos ⟨by decide, by norm_num⟩]
  · have h := process_frame_spec ⟨10, 10, 0⟩ 0 7 8 ⟨0, 0, 5, 5⟩ (9/10)
      (fun _ _ => [("Hello", 85), ("World", 90)]) (by norm_num) (by norm_num)
      (by norm_num) (by norm_num) (by norm_num) (by norm_num) (by norm_num)
      (by norm_num) hconf
    rw [h]
    show Except.ok (if candidateText [("Hello", (85:ℚ)), ("World", 90)] ≠ "" ∧
        overallConf [("Hello", (85:ℚ)), ("World", 90)] ≥ 9/10 then _ else _) = _
    rw [hct, hoc]
    rw [if_neg (fun hc => absurd hc.2 (by norm_num))]

theorem exceptBind_ok {ε α β : Type} (a : α) (f : α → Except ε β) :
    ((Except.ok a : Except ε α) >>= f) = f a := rfl

theorem exceptBind_error {ε α β : Type} (e : ε) (f : α → Except ε β) :
    ((Except.error e : Except ε α) >>= f) = .error e := rfl

theorem mkOCRResult_ids {vid cid : Int} {ts : ℚ} {text : String} {conf : ℚ}
    {roi : ROI} {r : OCRResult}
    (h : mkOCRResult vid cid ts text conf roi = .ok r) :
    r.video_id = vid ∧ r.clip_id = cid := by
  rw [mkOCRResult] at h
  split_ifs at h
  cases h
  exact ⟨rfl, rfl⟩

theorem processROI_ids {H W : Int} {idx : Nat} {ts : ℚ} {vid cid : Int}
    {thr : ℚ} {engine : Engine} {roi : ROI} {r : List OCRResult}
    (h : processROI H W idx ts vid cid thr engine roi = .ok r) :
    ∀ d ∈ r, d.video_id = vid ∧ d.clip_id = cid := by
  rw [processROI] at h
  dsimp only at h
  split_ifs at h with hb hc he
  · simp only [Except.ok.injEq] at h
    intro d hd
    rw [← h] at hd
    cases hd
  · simp only [Except.ok.injEq] at h
    intro d hd
    rw [← h] at hd
    cases hd
  · cases hmk : mkOCRResult vid cid ts (candidateText (engine idx roi))
        (overallConf (engine idx roi)) roi with
    | ok res =>
      rw [hmk] at h
      simp only [Except.ok.injEq] at h
      intro d hd
      rw [← h] at hd
      simp only [List.mem_singleton] at hd
      subst hd
      exact mkOCRResult_ids hmk
    | error e =>
      rw [hmk] at h
      cases h
  · simp only [Except.ok.injEq] at h
    intro d hd
    rw [← h] at hd
    cases hd

theorem processROIList_ids {H W : Int} {idx : Nat} {ts : ℚ} {vid cid : Int}
    {thr : ℚ} {engine : Engine} :
    ∀ (rois : List ROI) {r : List OCRResult},
      processROIList H W idx ts vid cid thr engine rois = .ok r →
      ∀ d ∈ r, d.video_id = vid ∧ d.clip_id = cid := by
  intro rois
  induction rois with
  | nil =>
    intro r h d hd
    rw [processROIList] at h
    simp only [Except.ok.injEq] at h
    rw [← h] at hd
    cases hd
  | cons roi rest ih =>
    intro r h d hd
    rw [processROIList] at h
    cases h1 : processROI H W idx ts vid cid thr engine roi with
    | error e =>
      rw [h1] at h
      simp only [exceptBind_error] at h
      cases h
    | ok r1 =>
      rw [h1] at h
      simp only [exceptBind_ok] at h
      cases h2 : processROIList H W idx ts vid cid thr engine rest with
      | error e =>
        rw [h2] at h
        simp only [exceptBind_error] at h
        cases h
      | ok r2 =>
        rw [h2] at h
        simp only [exceptBind_ok, Except.ok.injEq] at h
        rw [← h] at hd
        rcases List.mem_append.mp hd with hd1 | hd2
        · exact processROI_ids h1 d hd1
        · exact ih h2 d hd2

theorem process_frame_ids {f : Frame} {t : ℚ} {vid cid : Int}
    {rois : List ROI} {thr : ℚ} {engine : Engine} {r : List OCRResult}
    (h : process_frame_for_ocr f t vid cid rois thr engine = .ok r) :
    ∀ d ∈ r, d.video_id = vid ∧ d.clip_id = cid := by
  rw [process_frame_for_ocr] at h
  split_ifs at h
  exact processROIList_ids rois h

theorem processBatchLoop_spec (cid : Int) (rois : List ROI) (thr : ℚ)
    (engine : Engine) : ∀ (pairs : List (Frame × ℚ)) (l : List OCRResult),
    processBatchLoop cid rois thr engine pairs = .ok l →
    (∃ rs : List (List OCRResult),
      List.Forall₂ (fun pr r => process_frame_for_ocr pr.1 pr.2 cid cid rois
        thr engine = .ok r) pairs rs ∧ l = rs.flatten) ∧
    (∀ d ∈ l, d.video_id = cid ∧ d.clip_id = cid) := by
  intro pairs
  induction pairs with
  | nil =>
    intro l h
    rw [processBatchLoop] at h
    simp only [Except.ok.injEq] at h
    subst h
    exact ⟨⟨[], List.Forall₂.nil, by simp⟩, by simp⟩
  | cons p rest ih =>
    intro l h
    obtain ⟨f, t⟩ := p
    rw [processBatchLoop] at h
    cases h1 : process_frame_for_ocr f t cid cid rois thr engine with
    | error e =>
      rw [h1] at h
      simp only [exceptBind_error] at h
      cases h
    | ok r1 =>
      rw [h1] at h
      simp only [exceptBind_ok] at h
      cases h2 : processBatchLoop cid rois thr engine rest with
      | error e =>
        rw [h2] at h
        simp only [exceptBind_error] at h
        cases h
      | ok r2 =>
        rw [h2] at h
        simp only [exceptBind_ok, Except.ok.injEq] at h
        subst h
        obtain ⟨⟨rs, hfa, hjoin⟩, hids⟩ := ih r2 h2
        constructor
        · exact ⟨r1 :: rs, List.Forall₂.cons h1 hfa, by simp [hjoin]⟩
        · intro d hd
          rcases List.mem_append.mp hd with hd1 | hd2
          · exact process_frame_ids h1 d hd1
          · exact hids d hd2

/-- C6: whenever `recognize_batch` succeeds, its output is the in-order
concatenation of the per-frame results of `recognize_frame` applied to every
`(frame, timestamp)` pair of the batch in submission order, and every
resulting Detection carries the batch's clip identifier as both its video id
and its clip id. -/
theorem process_batch_spec (batch : FrameBatch) (rois : List ROI) (thr : ℚ)
    (engine : Engine) (l : List OCRResult)
    (hok : process_batch_for_ocr batch rois thr engine = .ok l) :
    (∃ rs : List (List OCRResult),
      List.Forall₂ (fun pr r => process_frame_for_ocr pr.1 pr.2 batch.clip_id
        batch.clip_id rois thr engine = .ok r)
        (batch.frames.zip batch.timestamps) rs ∧
      l = rs.flatten) ∧
    (∀ d ∈ l, d.video_id = batch.clip_id ∧ d.clip_id = batch.clip_id) := by
  rw [process_batch_for_ocr] at hok
  split_ifs at hok
  exact processBatchLoop_spec _ _ _ _ _ _ hok

/-- Witness for C6: a two-frame batch with no ROIs succeeds; the theorem
yields the per-frame decomposition and the id property for its output. -/
theorem process_batch_spec_witness :
    ∃ l, process_batch_for_ocr ⟨5, [⟨10, 10, 0⟩, ⟨10, 10, 1⟩], [0, 1]⟩ []
      (1/2) (fun _ _ => []) = .ok l ∧
    (∃ rs : List (List OCRResult),
      List.Forall₂ (fun pr r => process_frame_for_ocr pr.1 pr.2 5 5 []
        (1/2) (fun _ _ => []) = .ok r)
        ([(⟨10, 10, 0⟩, 0), (⟨10, 10, 1⟩, 1)] : List (Frame × ℚ)) rs ∧
      l = rs.flatten) ∧
    (∀ d ∈ l, d.video_id = 5 ∧ d.clip_id = 5) := by
  have hthr : ¬¬((0:ℚ) ≤ 1/2 ∧ (1:ℚ)/2 ≤ 1) := not_not_intro (by norm_num)
  have hframe : ∀ (f : Frame) (t : ℚ),
      process_frame_for_ocr f t 5 5 [] (1/2) (fun _ _ => []) = .ok [] := by
    intro f t
    rw [process_frame_for_ocr, if_neg hthr, processROIList]
  have hok : process_batch_for_ocr ⟨5, [⟨10, 10, 0⟩, ⟨10, 10, 1⟩], [0, 1]⟩ []
      (1/2) (fun _ _ => []) = .ok [] := by
    rw [process_batch_for_ocr, if_neg hthr]
    show processBatchLoop 5 [] (1/2) (fun _ _ => [])
      [(⟨10, 10, 0⟩, 0), (⟨10, 10, 1⟩, 1)] = .ok []
    rw [processBatchLoop, hframe, exceptBind_ok, processBatchLoop, hframe,
      exceptBind_ok, processBatchLoop, exceptBind_ok]
    rfl
  obtain ⟨hstruct, hids⟩ := process_batch_spec _ _ _ _ _ hok
  exact ⟨[], hok, hstruct, hids⟩
